import Mathlib

set_option maxHeartbeats 1000000

/-!
Shallow embedding of the HTTP-server cache subsystem of this repository:
the array-backed PriorityQueue cache (PriorityQueue.c), the
reference-counted deque cache (server_cached.c), and the naive server's
locking discipline around them (server_cached_naive.c).
-/

/-- Model of `struct timespec`: seconds and nanoseconds as machine integers. -/
structure Timespec where
  tv_sec : Int
  tv_nsec : Int
deriving DecidableEq, Repr

instance : Inhabited Timespec := ⟨⟨0, 0⟩⟩

/-- `compare_timespec` from PriorityQueue.c: 1 if t1 > t2, -1 if t1 < t2,
0 if equal, comparing seconds first and then nanoseconds. -/
def compare_timespec (t1 t2 : Timespec) : Int :=
  if t1.tv_sec > t2.tv_sec then 1
  else if t1.tv_sec < t2.tv_sec then -1
  else if t1.tv_nsec > t2.tv_nsec then 1
  else if t1.tv_nsec < t2.tv_nsec then -1
  else 0

/-- `a` is strictly earlier than `b`, i.e. `compare_timespec a b == -1`
exactly as the C code tests it. -/
def tsLt (a b : Timespec) : Prop := compare_timespec a b = -1

instance (a b : Timespec) : Decidable (tsLt a b) := by
  unfold tsLt
  infer_instance

lemma tsLt_iff (a b : Timespec) :
    tsLt a b ↔ (a.tv_sec < b.tv_sec ∨ (a.tv_sec = b.tv_sec ∧ a.tv_nsec < b.tv_nsec)) := by
  unfold tsLt compare_timespec
  split_ifs <;> norm_num <;> omega

lemma tsLt_asymm {a b : Timespec} (h : tsLt a b) : ¬ tsLt b a := by
  rw [tsLt_iff] at h ⊢
  omega

lemma tsLt_irrefl (a : Timespec) : ¬ tsLt a a := by
  rw [tsLt_iff]
  omega

lemma not_tsLt_trans {a b c : Timespec} (h1 : ¬ tsLt b a) (h2 : ¬ tsLt c b) : ¬ tsLt c a := by
  rw [tsLt_iff] at h1 h2 ⊢
  omega

lemma not_tsLt_of_lt_of_not_lt {a b c : Timespec} (h1 : ¬ tsLt a b) (h2 : tsLt a c) :
    ¬ tsLt c b := by
  rw [tsLt_iff] at h1 h2 ⊢
  omega

/-- Model of `HttpResponse` (HttpResponse.h): the payload is the file's
bytes, `filesize` its length, `access_time` the recency stamp. -/
structure HttpResponse where
  filename : String
  response : List Nat
  filesize : Nat
  access_time : Timespec
deriving DecidableEq, Repr

instance : Inhabited HttpResponse := ⟨⟨"", [], 0, default⟩⟩

/-- Capacity constant `MAX` (HttpResponse.h): 5 slots. -/
def MAX : Nat := 5

/-- Index of the first element satisfying `p`; models the `for` scan with
`break` used by both `search` functions. -/
def firstIdx {α : Type} (p : α → Bool) : List α → Option Nat
  | [] => none
  | a :: t => if p a then some 0 else (firstIdx p t).map (fun n => n + 1)

lemma firstIdx_none_iff {α : Type} (p : α → Bool) (l : List α) :
    firstIdx p l = none ↔ ∀ a ∈ l, ¬ p a := by
  induction l with
  | nil => simp [firstIdx]
  | cons a t ih =>
    by_cases h : p a <;> simp [firstIdx, h, ih]

lemma firstIdx_some {α : Type} [Inhabited α] {p : α → Bool} {l : List α} {i : Nat}
    (h : firstIdx p l = some i) :
    i < l.length ∧ p (l.getD i default) ∧ ∀ j < i, ¬ p (l.getD j default) := by
  induction l generalizing i with
  | nil => simp [firstIdx] at h
  | cons a t ih =>
    by_cases ha : p a
    · simp [firstIdx, ha] at h
      subst h
      refine ⟨by simp, by simpa using ha, by omega⟩
    · simp [firstIdx, ha] at h
      obtain ⟨j, hj, rfl⟩ := h
      obtain ⟨h1, h2, h3⟩ := ih hj
      refine ⟨by simpa using h1, by simpa using h2, ?_⟩
      intro k hk
      cases k with
      | zero => simpa using ha
      | succ k => simpa using h3 k (by omega)

lemma firstIdx_isSome_of_mem {α : Type} {p : α → Bool} {l : List α} {a : α}
    (ha : a ∈ l) (hp : p a) : (firstIdx p l).isSome := by
  induction l with
  | nil => simp at ha
  | cons b t ih =>
    by_cases hb : p b
    · simp [firstIdx, hb]
    · rcases List.mem_cons.mp ha with rfl | ht
      · exact absurd hp hb
      · simp only [firstIdx, hb, if_neg]
        have := ih ht
        cases h : firstIdx p t with
        | none => rw [h] at this; simp at this
        | some k => simp [h]

/-- Swap the contents of slots `i` and `j`; models `swap(pq->items[i],
pq->items[j])`, which exchanges the two pointed-to structs. -/
def listSwap {α : Type} [Inhabited α] (l : List α) (i j : Nat) : List α :=
  (l.set i (l.getD j default)).set j (l.getD i default)

lemma listSwap_length {α : Type} [Inhabited α] (l : List α) (i j : Nat) :
    (listSwap l i j).length = l.length := by
  simp [listSwap]

lemma getD_set_self {α : Type} [Inhabited α] (l : List α) (i : Nat) (v : α)
    (h : i < l.length) : (l.set i v).getD i default = v := by
  rw [List.getD_eq_getElem?_getD, List.getElem?_set_self h]
  rfl

lemma getD_set_ne {α : Type} [Inhabited α] (l : List α) {i j : Nat} (v : α)
    (h : i ≠ j) : (l.set i v).getD j default = l.getD j default := by
  rw [List.getD_eq_getElem?_getD, List.getElem?_set_ne h, ← List.getD_eq_getElem?_getD]

lemma getD_mem {α : Type} [Inhabited α] (l : List α) (i : Nat) (h : i < l.length) :
    l.getD i default ∈ l := by
  rw [List.getD_eq_getElem l default h]
  exact List.getElem_mem h

lemma perm_set_cons {α : Type} [Inhabited α] (t : List α) (k : Nat) (x : α)
    (h : k < t.length) : List.Perm (t.getD k default :: t.set k x) (x :: t) := by
  induction t generalizing k with
  | nil => simp at h
  | cons a t2 ih =>
    cases k with
    | zero => simpa using List.Perm.swap x a t2
    | succ k =>
      have hk : k < t2.length := by simpa using h
      have s1 : List.Perm (t2.getD k default :: a :: t2.set k x)
          (a :: t2.getD k default :: t2.set k x) := List.Perm.swap a (t2.getD k default) _
      have s2 : List.Perm (a :: t2.getD k default :: t2.set k x) (a :: x :: t2) :=
        List.Perm.cons a (ih k hk)
      have s3 : List.Perm (a :: x :: t2) (x :: a :: t2) := List.Perm.swap x a t2
      simpa using (s1.trans s2).trans s3

lemma listSwap_perm {α : Type} [Inhabited α] (l : List α) {i j : Nat}
    (hij : i < j) (hj : j < l.length) : List.Perm (listSwap l i j) l := by
  induction l generalizing i j with
  | nil => simp at hj
  | cons c t ih =>
    cases i with
    | zero =>
      obtain ⟨m, rfl⟩ : ∃ m, j = m + 1 := ⟨j - 1, by omega⟩
      have hm : m < t.length := by simpa using hj
      show List.Perm (((c :: t).set 0 ((c :: t).getD (m + 1) default)).set (m + 1)
        ((c :: t).getD 0 default)) (c :: t)
      simp only [List.getD_cons_succ, List.getD_cons_zero, List.set_cons_zero,
        List.set_cons_succ]
      exact perm_set_cons t m c hm
    | succ n =>
      obtain ⟨m, rfl⟩ : ∃ m, j = m + 1 := ⟨j - 1, by omega⟩
      have hm : m < t.length := by simpa using hj
      show List.Perm (((c :: t).set (n + 1) ((c :: t).getD (m + 1) default)).set (m + 1)
        ((c :: t).getD (n + 1) default)) (c :: t)
      simp only [List.getD_cons_succ, List.set_cons_succ]
      exact List.Perm.cons c (ih (by omega) hm)

lemma listSwap_mem {α : Type} [Inhabited α] {l : List α} {i j : Nat} {x : α}
    (hij : i < j) (hj : j < l.length) (hx : x ∈ listSwap l i j) : x ∈ l :=
  (listSwap_perm l hij hj).mem_iff.mp hx

namespace PriorityQueue

/-- Access-time of the entry at slot `i` of the items array. -/
def ts (l : List HttpResponse) (i : Nat) : Timespec := (l.getD i default).access_time

/-- Recursion core of `heapifyUp`: the index strictly decreases at each
step (`(index-1)/2 < index` for `index > 0`), so `index + 1` steps of fuel
always suffice; the fuel only makes the recursion structural. -/
def heapifyUpGo : Nat → List HttpResponse → Nat → List HttpResponse
  | 0, l, _ => l
  | fuel + 1, l, index =>
    if index ≠ 0 ∧
        compare_timespec (ts l ((index - 1) / 2)) (ts l index) = -1 then
      heapifyUpGo fuel (listSwap l ((index - 1) / 2) index) ((index - 1) / 2)
    else l

/-- `heapifyUp` from PriorityQueue.c: while the parent slot's access time
compares `-1` (strictly earlier) against the current slot's, swap their
contents and continue at the parent. -/
def heapifyUp (l : List HttpResponse) (index : Nat) : List HttpResponse :=
  heapifyUpGo (index + 1) l index

lemma heapifyUpGo_fuel : ∀ (fuel fuel2 : Nat) (l : List HttpResponse) (index : Nat),
    index < fuel → index < fuel2 → heapifyUpGo fuel l index = heapifyUpGo fuel2 l index := by
  intro fuel
  induction fuel with
  | zero => intro fuel2 l index h; omega
  | succ fuel ih =>
    intro fuel2 l index h1 h2
    obtain ⟨f2, rfl⟩ : ∃ f2, fuel2 = f2 + 1 := ⟨fuel2 - 1, by omega⟩
    show heapifyUpGo (fuel + 1) l index = heapifyUpGo (f2 + 1) l index
    unfold heapifyUpGo
    by_cases h : index ≠ 0 ∧
        compare_timespec (ts l ((index - 1) / 2)) (ts l index) = -1
    · rw [if_pos h, if_pos h]
      exact ih f2 _ _ (by omega) (by omega)
    · rw [if_neg h, if_neg h]

lemma heapifyUp_stop {l : List HttpResponse} {index : Nat}
    (h : ¬ (index ≠ 0 ∧
      compare_timespec (ts l ((index - 1) / 2)) (ts l index) = -1)) :
    heapifyUp l index = l := by
  unfold heapifyUp heapifyUpGo
  rw [if_neg h]

lemma heapifyUp_go {l : List HttpResponse} {index : Nat}
    (h : index ≠ 0 ∧
      compare_timespec (ts l ((index - 1) / 2)) (ts l index) = -1) :
    heapifyUp l index = heapifyUp (listSwap l ((index - 1) / 2) index) ((index - 1) / 2) := by
  show heapifyUpGo (index + 1) l index = heapifyUpGo ((index - 1) / 2 + 1) _ ((index - 1) / 2)
  obtain ⟨i2, rfl⟩ : ∃ i2, index = i2 + 1 := ⟨index - 1, by omega⟩
  unfold heapifyUpGo
  rw [if_pos h]
  exact heapifyUpGo_fuel (i2 + 1) ((i2 + 1 - 1) / 2 + 1) _ ((i2 + 1 - 1) / 2)
    (by omega) (by omega)

end PriorityQueue

namespace PriorityQueue

lemma ts_listSwap (l : List HttpResponse) {p i : Nat} (hpi : p ≠ i)
    (hp : p < l.length) (hi : i < l.length) (k : Nat) :
    ts (listSwap l p i) k =
      if k = i then ts l p else if k = p then ts l i else ts l k := by
  unfold ts listSwap
  by_cases hki : k = i
  · subst hki
    rw [if_pos rfl, getD_set_self _ _ _ (by simpa using hi)]
  · rw [if_neg hki, getD_set_ne _ _ (fun hh => hki hh.symm)]
    by_cases hkp : k = p
    · subst hkp
      rw [if_pos rfl, getD_set_self _ _ _ hp]
    · rw [if_neg hkp, getD_set_ne _ _ (fun hh => hkp hh.symm)]

lemma heapifyUp_length (l : List HttpResponse) (i : Nat) :
    (heapifyUp l i).length = l.length := by
  induction i using Nat.strong_induction_on generalizing l with
  | _ i ih =>
    by_cases h : i ≠ 0 ∧ compare_timespec (ts l ((i - 1) / 2)) (ts l i) = -1
    · rw [heapifyUp_go h, ih _ (by omega), listSwap_length]
    · rw [heapifyUp_stop h]

lemma heapifyUp_perm (l : List HttpResponse) (i : Nat) (hi : i < l.length) :
    List.Perm (heapifyUp l i) l := by
  induction i using Nat.strong_induction_on generalizing l with
  | _ i ih =>
    by_cases h : i ≠ 0 ∧ compare_timespec (ts l ((i - 1) / 2)) (ts l i) = -1
    · rw [heapifyUp_go h]
      have hlt : (i - 1) / 2 < i := by omega
      have h1 : List.Perm (heapifyUp (listSwap l ((i - 1) / 2) i) ((i - 1) / 2))
          (listSwap l ((i - 1) / 2) i) :=
        ih _ hlt _ (by rw [listSwap_length]; omega)
      exact h1.trans (listSwap_perm l hlt hi)
    · rw [heapifyUp_stop h]

/-- `search` from PriorityQueue.c: scan for the first slot whose filename
matches; on a hit, stamp slot `i`'s `access_time` with the current clock
reading `now` and heapify it up. The C function captures the POINTER
`ret = pq->items[i]` before `heapifyUp` runs, and `swap` exchanges the
contents of the pointed-to structs while the pointer array stays fixed -
so the entry the caller sees through `ret` is whatever slot `i` holds
AFTER the heapify (the old parent's entry whenever a swap occurred). -/
def search (l : List HttpResponse) (target : String) (now : Timespec) :
    Option HttpResponse × List HttpResponse :=
  match firstIdx (fun e => e.filename == target) l with
  | none => (none, l)
  | some i =>
    let l2 := heapifyUp (l.set i { l.getD i default with access_time := now }) i
    (some (l2.getD i default), l2)

/-- `LONG_MAX` used to seed the eviction scan. -/
def LONG_MAX : Int := 9223372036854775807

/-- The eviction scan of `enqueue` (PriorityQueue.c): walk the last
`size/2 + 1` slots (indices `size-1`, `size-2`, ...) keeping the minimum
`access_time`; the accumulator starts at `(LONG_MAX, LONG_MAX)` with index
`MAX - 1`. Returns the final (min, min_index) pair. -/
def evictScan (l : List HttpResponse) : Timespec × Nat :=
  (List.range (l.length / 2 + 1)).foldl
    (fun acc i =>
      if compare_timespec (ts l (l.length - i - 1)) acc.1 = -1 then
        (ts l (l.length - i - 1), l.length - i - 1)
      else acc)
    (⟨LONG_MAX, LONG_MAX⟩, MAX - 1)

/-- `enqueue` from PriorityQueue.c: if the array is full, overwrite the
slot found by the eviction scan and heapify it up (the evicted entry is
freed); otherwise append at `size` and heapify up. -/
def enqueue (l : List HttpResponse) (value : HttpResponse) : List HttpResponse :=
  if l.length = MAX then
    heapifyUp (l.set (evictScan l).2 value) (evictScan l).2
  else
    heapifyUp (l ++ [value]) l.length

/-- The ordering the code actually maintains: every occupied child slot's
`access_time` is not later than its parent's (parent ≥ child, a max-heap
on access times, most recent at the root). -/
def IsMaxHeap (l : List HttpResponse) : Prop :=
  ∀ i, i < l.length → 0 < i → ¬ tsLt (ts l ((i - 1) / 2)) (ts l i)

instance (l : List HttpResponse) : Decidable (IsMaxHeap l) := by
  unfold IsMaxHeap
  exact Nat.decidableBallLT _ _

/-- The ordering claimed by the spec: the parent slot's `lastAccess` is
less than or equal to its children's (min-heap, least recent at the
root). -/
def SpecMinHeap (l : List HttpResponse) : Prop :=
  ∀ i, i < l.length → 0 < i → ¬ tsLt (ts l i) (ts l ((i - 1) / 2))

instance (l : List HttpResponse) : Decidable (SpecMinHeap l) := by
  unfold SpecMinHeap
  exact Nat.decidableBallLT _ _

end PriorityQueue

namespace PriorityQueue

/-- Sift-up restoration: if every parent/child edge except possibly the one
into slot `i` is ordered, and the children of `i` already fit below the
parent of `i`, then `heapifyUp` at `i` yields a max-heap. -/
lemma heapifyUp_restore : ∀ (i : Nat) (l : List HttpResponse), i < l.length →
    (∀ j, j < l.length → 0 < j → j ≠ i → ¬ tsLt (ts l ((j - 1) / 2)) (ts l j)) →
    (0 < i → ∀ j, j < l.length → 0 < j → (j - 1) / 2 = i →
      ¬ tsLt (ts l ((i - 1) / 2)) (ts l j)) →
    IsMaxHeap (heapifyUp l i) := by
  intro i
  induction i using Nat.strong_induction_on with
  | _ i ih =>
    intro l hi hA hB
    by_cases h : i ≠ 0 ∧ compare_timespec (ts l ((i - 1) / 2)) (ts l i) = -1
    · obtain ⟨hi0, hcmp⟩ := h
      have hcmp' : tsLt (ts l ((i - 1) / 2)) (ts l i) := hcmp
      have hpi : (i - 1) / 2 < i := by omega
      have hplen : (i - 1) / 2 < l.length := lt_trans hpi hi
      rw [heapifyUp_go ⟨hi0, hcmp⟩]
      have hts : ∀ k, ts (listSwap l ((i - 1) / 2) i) k =
          if k = i then ts l ((i - 1) / 2)
          else if k = (i - 1) / 2 then ts l i else ts l k :=
        ts_listSwap l (Nat.ne_of_lt hpi) hplen hi
      apply ih ((i - 1) / 2) hpi
      · rw [listSwap_length]; exact hplen
      · -- every edge except the one into (i-1)/2 is ordered in the swapped list
        intro j hj hj0 hjp
        rw [listSwap_length] at hj
        by_cases hji : j = i
        · subst hji
          have hne : (j - 1) / 2 ≠ j := by omega
          rw [hts ((j - 1) / 2), hts j, if_neg hne, if_pos rfl, if_pos rfl]
          exact tsLt_asymm hcmp'
        · have hq : (j - 1) / 2 ≠ j := by omega
          rw [hts, hts, if_neg hji, if_neg hjp]
          by_cases hqi : (j - 1) / 2 = i
          · rw [if_pos hqi]
            exact hB (by omega) j hj hj0 hqi
          · rw [if_neg hqi]
            by_cases hqp : (j - 1) / 2 = (i - 1) / 2
            · rw [if_pos hqp]
              have hAj : ¬ tsLt (ts l ((j - 1) / 2)) (ts l j) := hA j hj hj0 hji
              rw [hqp] at hAj
              exact not_tsLt_of_lt_of_not_lt hAj hcmp'
            · rw [if_neg hqp]
              exact hA j hj hj0 hji
      · -- children of (i-1)/2 fit below its parent in the swapped list
        intro hp0 j hj hj0 hjc
        rw [listSwap_length] at hj
        have hgp : ((i - 1) / 2 - 1) / 2 ≠ (i - 1) / 2 := by omega
        have hgi : ((i - 1) / 2 - 1) / 2 ≠ i := by omega
        rw [hts, hts, if_neg hgi, if_neg hgp]
        by_cases hji : j = i
        · rw [if_pos hji]
          exact hA ((i - 1) / 2) hplen hp0 (Nat.ne_of_lt hpi)
        · have hjp : j ≠ (i - 1) / 2 := by omega
          rw [if_neg hji, if_neg hjp]
          have h1 : ¬ tsLt (ts l ((j - 1) / 2)) (ts l j) := hA j hj hj0 hji
          rw [hjc] at h1
          have h2 : ¬ tsLt (ts l (((i - 1) / 2 - 1) / 2)) (ts l ((i - 1) / 2)) :=
            hA ((i - 1) / 2) hplen hp0 (Nat.ne_of_lt hpi)
          exact not_tsLt_trans h1 h2
    · rw [heapifyUp_stop h]
      intro j hj hj0
      by_cases hji : j = i
      · subst hji
        have : ¬ compare_timespec (ts l ((j - 1) / 2)) (ts l j) = -1 := by
          rcases not_and_or.mp h with h0 | hc
          · omega
          · exact hc
        simpa [tsLt] using this
      · exact hA j hj hj0 hji

end PriorityQueue

namespace PriorityQueue

lemma ts_set_self {l : List HttpResponse} {i : Nat} (v : HttpResponse)
    (h : i < l.length) : ts (l.set i v) i = v.access_time := by
  unfold ts
  rw [getD_set_self _ _ _ h]

lemma ts_set_ne {l : List HttpResponse} {i k : Nat} (v : HttpResponse)
    (h : i ≠ k) : ts (l.set i v) k = ts l k := by
  unfold ts
  rw [getD_set_ne _ _ h]

lemma ts_append_lt {l : List HttpResponse} (v : HttpResponse) {k : Nat}
    (h : k < l.length) : ts (l ++ [v]) k = ts l k := by
  unfold ts
  rw [List.getD_append _ _ _ _ h]

lemma ts_mem {l : List HttpResponse} {k : Nat} (h : k < l.length) :
    l.getD k default ∈ l := getD_mem l k h

/-- If the root dominates nothing smaller: in a max-heap the root's access
time is the latest of all occupied slots. -/
lemma root_latest {l : List HttpResponse} (hh : IsMaxHeap l) :
    ∀ i, i < l.length → ¬ tsLt (ts l 0) (ts l i) := by
  intro i
  induction i using Nat.strong_induction_on with
  | _ i ih =>
    intro hi
    by_cases h0 : i = 0
    · subst h0
      exact tsLt_irrefl _
    · have hp : ¬ tsLt (ts l 0) (ts l ((i - 1) / 2)) :=
        ih ((i - 1) / 2) (by omega) (lt_trans (by omega) hi)
      have he : ¬ tsLt (ts l ((i - 1) / 2)) (ts l i) := hh i hi (by omega)
      exact not_tsLt_trans he hp

/-- Overwriting any slot with an entry whose access time is not earlier
than every entry in the array, then sifting up, yields a max-heap. -/
lemma set_heapifyUp_maxheap {l : List HttpResponse} {idx : Nat} {v : HttpResponse}
    (hidx : idx < l.length) (hh : IsMaxHeap l)
    (hmax : ∀ e ∈ l, ¬ tsLt v.access_time e.access_time) :
    IsMaxHeap (heapifyUp (l.set idx v) idx) := by
  apply heapifyUp_restore idx (l.set idx v) (by simpa using hidx)
  · intro j hj hj0 hji
    rw [List.length_set] at hj
    rw [ts_set_ne v (fun hh2 => hji hh2.symm)]
    by_cases hq : (j - 1) / 2 = idx
    · rw [hq, ts_set_self v hidx]
      exact hmax _ (ts_mem hj)
    · rw [ts_set_ne v (fun hh2 => hq hh2.symm)]
      exact hh j hj hj0
  · intro hidx0 j hj hj0 hjc
    rw [List.length_set] at hj
    have hji : j ≠ idx := by omega
    have hgp : (idx - 1) / 2 ≠ idx := by omega
    rw [ts_set_ne v (fun hh2 => hgp hh2.symm), ts_set_ne v (fun hh2 => hji hh2.symm)]
    have h1 : ¬ tsLt (ts l idx) (ts l j) := by
      have := hh j hj hj0
      rwa [hjc] at this
    have h2 : ¬ tsLt (ts l ((idx - 1) / 2)) (ts l idx) := hh idx hidx hidx0
    exact not_tsLt_trans h1 h2

lemma evictScan_lt (l : List HttpResponse) (h : l.length = MAX) :
    (evictScan l).2 < l.length := by
  unfold evictScan
  rw [h]
  have hr : List.range (MAX / 2 + 1) = [0, 1, 2] := rfl
  rw [hr]
  simp only [List.foldl_cons, List.foldl_nil]
  split_ifs <;> simp [MAX]

/-- Inserting an entry whose access time is not earlier than any cached
entry's preserves the max-heap ordering (both the append path and the
evict-overwrite path of `enqueue`). -/
lemma enqueue_maxheap {l : List HttpResponse} {v : HttpResponse}
    (hh : IsMaxHeap l)
    (hmax : ∀ e ∈ l, ¬ tsLt v.access_time e.access_time) :
    IsMaxHeap (enqueue l v) := by
  unfold enqueue
  by_cases hfull : l.length = MAX
  · rw [if_pos hfull]
    exact set_heapifyUp_maxheap (evictScan_lt l hfull) hh hmax
  · rw [if_neg hfull]
    apply heapifyUp_restore l.length (l ++ [v]) (by simp)
    · intro j hj hj0 hji
      simp only [List.length_append, List.length_cons, List.length_nil] at hj
      have hjlt : j < l.length := by omega
      have hplt : (j - 1) / 2 < l.length := by omega
      rw [ts_append_lt v hjlt, ts_append_lt v hplt]
      exact hh j hjlt hj0
    · intro h0 j hj hj0 hjc
      simp only [List.length_append, List.length_cons, List.length_nil] at hj
      omega

/-- A hit promotion (`search` finding a match, stamping `now` and sifting
up) preserves the max-heap ordering when `now` is not earlier than any
cached access time. -/
lemma search_maxheap (l : List HttpResponse) (target : String) (now : Timespec)
    (hh : IsMaxHeap l) (hnow : ∀ e ∈ l, ¬ tsLt now e.access_time) :
    IsMaxHeap (search l target now).2 := by
  unfold search
  cases hfi : firstIdx (fun e => e.filename == target) l with
  | none => exact hh
  | some i =>
    obtain ⟨hilen, hmatch, hfirst⟩ := firstIdx_some hfi
    exact set_heapifyUp_maxheap hilen hh (fun e he => hnow e he)

end PriorityQueue

namespace DequeSrv

/-- `struct Node` of server_cached.c: wraps one `HttpResponse`, the
`valid` flag (cleared when the node is retired by `remove_tail`) and the
`reference_count` pin count. `nid` stands for the node's heap address and
identifies it across the allocated/freed sets; `prev`/`next` are
represented by the node's position in the state's `live` list. -/
structure Node where
  nid : Nat
  data : HttpResponse
  valid : Bool
  reference_count : Int
deriving DecidableEq, Repr

instance : Inhabited Node := ⟨⟨0, default, true, 0⟩⟩

/-- State of the `Deque` cache: `live` is the linked list reachable from
`head` (head first, tail last; `deck->size = live.length`), `retired`
holds nodes unlinked by `remove_tail` and not yet freed, `freed` the nodes
whose memory has been released by `put_down`, and `nextId` is a fresh
address supply for `malloc`. -/
structure DeqState where
  live : List Node
  retired : List Node
  freed : List Node
  nextId : Nat
deriving DecidableEq, Repr

/-- `MAX_CACHE_COUNT` of server_cached.c. -/
def MAX_CACHE_COUNT : Nat := 5

/-- `search` of server_cached.c: if the deck is empty return NULL;
otherwise scan from the head and, at the first node whose filename
matches, increment that node's `reference_count` and return it (id and
data). No access-time update and no repositioning is performed. -/
def search (s : DeqState) (filename : String) :
    Option (Nat × HttpResponse) × DeqState :=
  if s.live.length = 0 then (none, s)
  else
    match firstIdx (fun n => n.data.filename == filename) s.live with
    | none => (none, s)
    | some i =>
      let n := s.live.getD i default
      (some (n.nid, n.data),
        { s with live :=
            s.live.set i { n with reference_count := n.reference_count + 1 } })

/-- `put_down` of server_cached.c: decrement the reference count of the
node the pointer `nid` designates; if the count is now 0 and the node is
retired (`valid == 0`), free the node together with its filename and
response buffers. In the model the node moves from `retired` to `freed`;
a still-linked (valid) node is never freed, exactly as in the C test. -/
def put_down (s : DeqState) (nid : Nat) : DeqState :=
  let dec := fun (n : Node) =>
    if n.nid = nid then { n with reference_count := n.reference_count - 1 } else n
  let live2 := s.live.map dec
  let retired2 := s.retired.map dec
  let doFree := fun (n : Node) =>
    n.nid == nid && n.reference_count == 0 && n.valid == false
  { s with
    live := live2
    retired := retired2.filter (fun n => ! doFree n)
    freed := s.freed ++ retired2.filter doFree }

/-- `remove_tail` of server_cached.c: unlink the tail node from the list
and clear its `valid` flag. Nothing is freed here, whatever the tail's
`reference_count` is. -/
def remove_tail (s : DeqState) : DeqState :=
  match s.live.getLast? with
  | none => s
  | some old =>
    { s with
      live := s.live.dropLast
      retired := { old with valid := false } :: s.retired }

/-- `enqueue` of server_cached.c: allocate a node (`allocOk = false`
models a failed `malloc`, which returns leaving the deck untouched); when
the deck holds `MAX_CACHE_COUNT` entries, retire the current tail via
`remove_tail` and link the new node at the head without touching `size`;
otherwise link at the head and increment `size` (the C code's separate
`size == 0` branch has the same effect as the general one). -/
def enqueue (s : DeqState) (new : HttpResponse) (allocOk : Bool) : DeqState :=
  if ! allocOk then s
  else
    let newNode : Node :=
      { nid := s.nextId, data := new, valid := true, reference_count := 0 }
    if s.live.length = MAX_CACHE_COUNT then
      let s2 := remove_tail s
      { s2 with live := newNode :: s2.live, nextId := s.nextId + 1 }
    else
      { s with live := newNode :: s.live, nextId := s.nextId + 1 }

/-- One cache-affecting call a worker thread can make on the deck. -/
inductive DOp where
  | ins : HttpResponse → Bool → DOp
  | look : String → DOp
  | pdown : Nat → DOp
deriving DecidableEq, Repr

def stepD (s : DeqState) : DOp → DeqState
  | .ins e ok => enqueue s e ok
  | .look k => (search s k).2
  | .pdown nid => put_down s nid

/-- The freshly initialised deck of `main` (`size = 0`, empty list). -/
def emptyD : DeqState := ⟨[], [], [], 0⟩

def runD (ops : List DOp) : DeqState := ops.foldl stepD emptyD

/-- The cached responses currently reachable from the head, head first. -/
def liveData (s : DeqState) : List HttpResponse := s.live.map Node.data

end DequeSrv

lemma firstIdx_map {α β : Type} (f : α → β) (p : β → Bool) (l : List α) :
    firstIdx p (l.map f) = firstIdx (fun a => p (f a)) l := by
  induction l with
  | nil => rfl
  | cons a t ih => by_cases h : p (f a) <;> simp [firstIdx, h, ih]

lemma firstIdx_append_skip {α : Type} (p : α → Bool) (A B : List α)
    (hA : ∀ x ∈ A, ¬ p x) :
    firstIdx p (A ++ B) = (firstIdx p B).map (fun n => n + A.length) := by
  induction A with
  | nil => cases h : firstIdx p B <;> simp [h]
  | cons a A2 ih =>
    have ha : ¬ p a := hA a (by simp)
    have h2 : ∀ x ∈ A2, ¬ p x := fun x hx => hA x (by simp [hx])
    simp only [List.cons_append, firstIdx, List.append_eq, if_neg ha, ih h2]
    cases h : firstIdx p B with
    | none => simp [h]
    | some k =>
      simp [h]
      omega

lemma getD_map {α β : Type} [Inhabited α] [Inhabited β] (f : α → β)
    (hd : f default = default) (l : List α) (i : Nat) :
    (l.map f).getD i default = f (l.getD i default) := by
  by_cases h : i < l.length
  · rw [List.getD_eq_getElem _ _ (by simpa using h), List.getElem_map,
      List.getD_eq_getElem _ _ h]
  · rw [List.getD_eq_default _ _ (by simpa using h),
      List.getD_eq_default _ _ (by omega), hd]

lemma set_getD_self {α : Type} [Inhabited α] (l : List α) (i : Nat) :
    l.set i (l.getD i default) = l := by
  apply List.ext_getElem?
  intro n
  rw [List.getElem?_set]
  split_ifs with h1 h2
  · subst h1
    rw [List.getD_eq_getElem _ _ h2, List.getElem?_eq_getElem h2]
  · subst h1
    rw [List.getElem?_eq_none (by omega)]
  · rfl

namespace PriorityQueue

/-- One cache-affecting call a worker thread can make on the PQ:
an insert (`enqueue`) or a lookup (`search` with the clock reading taken
at the hit). -/
inductive PQOp where
  | ins : HttpResponse → PQOp
  | look : String → Timespec → PQOp
deriving DecidableEq, Repr

def stepPQ (l : List HttpResponse) : PQOp → List HttpResponse
  | .ins e => enqueue l e
  | .look k now => (search l k now).2

/-- Run a sequence of cache calls against the initially empty queue
(`pq->size = 0` in `main`). -/
def runPQ (ops : List PQOp) : List HttpResponse := ops.foldl stepPQ []

lemma search_length (l : List HttpResponse) (k : String) (now : Timespec) :
    (search l k now).2.length = l.length := by
  unfold search
  cases hfi : firstIdx (fun e => e.filename == k) l with
  | none => rfl
  | some i =>
    simp only
    rw [heapifyUp_length, List.length_set]

lemma enqueue_length_le (l : List HttpResponse) (v : HttpResponse)
    (h : l.length ≤ MAX) : (enqueue l v).length ≤ MAX := by
  unfold enqueue
  by_cases hfull : l.length = MAX
  · rw [if_pos hfull, heapifyUp_length, List.length_set]
    omega
  · rw [if_neg hfull, heapifyUp_length]
    simp only [List.length_append, List.length_cons, List.length_nil]
    omega

lemma enqueue_length_full (l : List HttpResponse) (v : HttpResponse)
    (h : l.length = MAX) : (enqueue l v).length = MAX := by
  unfold enqueue
  rw [if_pos h, heapifyUp_length, List.length_set, h]

lemma runPQ_length_le (ops : List PQOp) : (runPQ ops).length ≤ MAX := by
  suffices hgen : ∀ l, l.length ≤ MAX → (ops.foldl stepPQ l).length ≤ MAX by
    exact hgen [] (by simp [MAX])
  induction ops with
  | nil => intro l h; simpa using h
  | cons op rest ih =>
    intro l h
    simp only [List.foldl_cons]
    apply ih
    cases op with
    | ins e => exact enqueue_length_le l e h
    | look k now => exact le_of_eq_of_le (search_length l k now) h

lemma heapifyUp_mem {l : List HttpResponse} {i : Nat} {x : HttpResponse}
    (hi : i < l.length) (hx : x ∈ heapifyUp l i) : x ∈ l :=
  (heapifyUp_perm l i hi).mem_iff.mp hx

lemma enqueue_mem {l : List HttpResponse} {v x : HttpResponse}
    (hx : x ∈ enqueue l v) : x ∈ l ∨ x = v := by
  unfold enqueue at hx
  by_cases hfull : l.length = MAX
  · rw [if_pos hfull] at hx
    have hidx : (evictScan l).2 < l.length := evictScan_lt l hfull
    have hx2 : x ∈ l.set (evictScan l).2 v :=
      heapifyUp_mem (by simpa using hidx) hx
    exact List.mem_or_eq_of_mem_set hx2
  · rw [if_neg hfull] at hx
    have hx2 : x ∈ l ++ [v] := heapifyUp_mem (by simp) hx
    simpa using hx2

lemma search_mem {l : List HttpResponse} {k : String} {now : Timespec}
    {x : HttpResponse} (hx : x ∈ (search l k now).2) :
    ∃ e ∈ l, x.filename = e.filename ∧ x.response = e.response := by
  unfold search at hx
  cases hfi : firstIdx (fun e => e.filename == k) l with
  | none =>
    rw [hfi] at hx
    exact ⟨x, hx, rfl, rfl⟩
  | some i =>
    rw [hfi] at hx
    simp only at hx
    obtain ⟨hilen, hmatch, hfirst⟩ := firstIdx_some hfi
    have hx2 : x ∈ l.set i { l.getD i default with access_time := now } :=
      heapifyUp_mem (by simpa using hilen) hx
    rcases List.mem_or_eq_of_mem_set hx2 with hmem | rfl
    · exact ⟨x, hmem, rfl, rfl⟩
    · exact ⟨l.getD i default, getD_mem l i hilen, rfl, rfl⟩

end PriorityQueue

namespace PriorityQueue

lemma search_eq_hit {l : List HttpResponse} {k : String} {i : Nat} (now : Timespec)
    (hfi : firstIdx (fun e => e.filename == k) l = some i) :
    search l k now =
      (some ((heapifyUp (l.set i { l.getD i default with access_time := now })
          i).getD i default),
        heapifyUp (l.set i { l.getD i default with access_time := now }) i) := by
  unfold search
  rw [hfi]

/-- When the first match already sits at the root, `heapifyUp 0` performs
no swap, so the pointer the C code returns still holds the (freshly
stamped) matched entry. -/
lemma search_root_hit {l : List HttpResponse} {k : String} (now : Timespec)
    (hfi : firstIdx (fun e => e.filename == k) l = some 0) :
    (search l k now).1 =
      some { l.getD 0 default with access_time := now } ∧
    (l.getD 0 default).filename = k := by
  obtain ⟨hilen, hmatch, _⟩ := firstIdx_some hfi
  constructor
  · rw [search_eq_hit now hfi]
    have hstop : heapifyUp
        (l.set 0 { l.getD 0 default with access_time := now }) 0 =
        l.set 0 { l.getD 0 default with access_time := now } :=
      heapifyUp_stop (by simp)
    rw [hstop, getD_set_self _ _ _ hilen]
  · simpa using hmatch

lemma search_eq_miss {l : List HttpResponse} {k : String} (now : Timespec)
    (hfi : firstIdx (fun e => e.filename == k) l = none) :
    search l k now = (none, l) := by
  unfold search
  rw [hfi]

/-- Which payloads can sit in the queue after a sequence of calls:
every entry carries the filename and bytes of some `ins` in the history
(searches only restamp `access_time` and permute slots). -/
def insertedLike (ops : List PQOp) (x : HttpResponse) : Prop :=
  ∃ e0, PQOp.ins e0 ∈ ops ∧ x.filename = e0.filename ∧ x.response = e0.response

lemma foldl_prov (ops : List PQOp) : ∀ (l : List HttpResponse) (x : HttpResponse),
    x ∈ ops.foldl stepPQ l →
    (∃ e ∈ l, x.filename = e.filename ∧ x.response = e.response) ∨
      insertedLike ops x := by
  induction ops with
  | nil =>
    intro l x hx
    exact Or.inl ⟨x, hx, rfl, rfl⟩
  | cons op rest ih =>
    intro l x hx
    simp only [List.foldl_cons] at hx
    rcases ih (stepPQ l op) x hx with ⟨e, he, hf, hr⟩ | hins
    · cases op with
      | ins v =>
        rcases enqueue_mem he with hmem | rfl
        · exact Or.inl ⟨e, hmem, hf, hr⟩
        · exact Or.inr ⟨e, by simp, hf, hr⟩
      | look k now =>
        obtain ⟨e2, he2, hf2, hr2⟩ := search_mem he
        exact Or.inl ⟨e2, he2, hf.trans hf2, hr.trans hr2⟩
    · obtain ⟨e0, hmem, hh⟩ := hins
      exact Or.inr ⟨e0, List.mem_cons_of_mem _ hmem, hh⟩

lemma runPQ_prov {ops : List PQOp} {x : HttpResponse} (hx : x ∈ runPQ ops) :
    insertedLike ops x := by
  rcases foldl_prov ops [] x hx with ⟨e, he, hh⟩ | h
  · simp at he
  · exact h

end PriorityQueue

namespace DequeSrv

lemma search_miss (s : DeqState) (k : String)
    (h : ∀ n ∈ s.live, n.data.filename ≠ k) : search s k = (none, s) := by
  unfold search
  by_cases h0 : s.live.length = 0
  · rw [if_pos h0]
  · rw [if_neg h0]
    have hfi : firstIdx (fun n => n.data.filename == k) s.live = none :=
      (firstIdx_none_iff _ _).mpr (fun n hn => by simpa using h n hn)
    rw [hfi]

lemma search_hit {s : DeqState} {k : String} {i : Nat}
    (hfi : firstIdx (fun n => n.data.filename == k) s.live = some i) :
    search s k = (some ((s.live.getD i default).nid, (s.live.getD i default).data),
      { s with live := s.live.set i { s.live.getD i default with
          reference_count := (s.live.getD i default).reference_count + 1 } }) := by
  have h0 : s.live.length ≠ 0 := by
    have := (firstIdx_some hfi).1
    omega
  unfold search
  rw [if_neg h0, hfi]

lemma search_liveData (s : DeqState) (k : String) :
    liveData ((search s k).2) = liveData s := by
  unfold search
  by_cases h0 : s.live.length = 0
  · rw [if_pos h0]
  · rw [if_neg h0]
    cases hfi : firstIdx (fun n => n.data.filename == k) s.live with
    | none => rfl
    | some i =>
      simp only [liveData]
      obtain ⟨hi, hmatch, hfirst⟩ := firstIdx_some hfi
      rw [List.map_set]
      have hval : (s.live.map Node.data).getD i default = (s.live.getD i default).data :=
        getD_map Node.data rfl s.live i
      show (s.live.map Node.data).set i (s.live.getD i default).data = s.live.map Node.data
      rw [← hval, set_getD_self]

lemma search_retired (s : DeqState) (k : String) :
    ((search s k).2).retired = s.retired := by
  unfold search
  by_cases h0 : s.live.length = 0
  · rw [if_pos h0]
  · rw [if_neg h0]
    cases hfi : firstIdx (fun n => n.data.filename == k) s.live <;> rfl

lemma search_freed (s : DeqState) (k : String) :
    ((search s k).2).freed = s.freed := by
  unfold search
  by_cases h0 : s.live.length = 0
  · rw [if_pos h0]
  · rw [if_neg h0]
    cases hfi : firstIdx (fun n => n.data.filename == k) s.live <;> rfl

lemma put_down_liveData (s : DeqState) (nid : Nat) :
    liveData (put_down s nid) = liveData s := by
  simp only [put_down, liveData, List.map_map]
  congr 1
  funext n
  by_cases h : n.nid = nid <;> simp [h]

lemma put_down_live_length (s : DeqState) (nid : Nat) :
    (put_down s nid).live.length = s.live.length := by
  simp [put_down]

lemma put_down_freed_sub {s : DeqState} {nid : Nat} {n : Node}
    (hn : n ∈ (put_down s nid).freed) :
    n ∈ s.freed ∨ (n.nid = nid ∧ n.reference_count = 0 ∧ n.valid = false) := by
  simp only [put_down] at hn
  rcases List.mem_append.mp hn with h | h
  · exact Or.inl h
  · have hf := List.of_mem_filter h
    right
    simp only [Bool.and_eq_true, beq_iff_eq] at hf
    exact ⟨hf.1.1, hf.1.2, hf.2⟩

lemma put_down_frees {s : DeqState} {n : Node} (hn : n ∈ s.retired)
    (hv : n.valid = false) (hrc : n.reference_count = 1) :
    { n with reference_count := 0 } ∈ (put_down s n.nid).freed := by
  simp only [put_down]
  apply List.mem_append.mpr
  right
  apply List.mem_filter.mpr
  constructor
  · apply List.mem_map.mpr
    refine ⟨n, hn, ?_⟩
    simp [hrc]
  · simp [hv]

lemma put_down_not_retired_freed {s : DeqState} {nid : Nat}
    (hnone : ∀ n ∈ s.retired, n.nid ≠ nid) :
    (put_down s nid).freed = s.freed := by
  simp only [put_down]
  have : ∀ n ∈ s.retired.map (fun n => if n.nid = nid then
      { n with reference_count := n.reference_count - 1 } else n),
      ¬ (n.nid == nid && n.reference_count == 0 && n.valid == false) = true := by
    intro n hn
    obtain ⟨n0, hn0, rfl⟩ := List.mem_map.mp hn
    have := hnone n0 hn0
    simp [this]
  rw [List.filter_eq_nil_iff.mpr this]
  simp

lemma remove_tail_freed (s : DeqState) : (remove_tail s).freed = s.freed := by
  unfold remove_tail
  cases h : s.live.getLast? <;> simp [h]

lemma enqueue_freed (s : DeqState) (e : HttpResponse) (ok : Bool) :
    (enqueue s e ok).freed = s.freed := by
  cases ok with
  | false => rfl
  | true =>
    unfold enqueue
    by_cases hfull : s.live.length = MAX_CACHE_COUNT
    · simp only [Bool.not_true, Bool.false_eq_true, if_false, if_pos hfull]
      exact remove_tail_freed s
    · simp only [Bool.not_true, Bool.false_eq_true, if_false, if_neg hfull]

lemma enqueue_live_full (s : DeqState) (e : HttpResponse)
    (hfull : s.live.length = MAX_CACHE_COUNT) :
    (enqueue s e true).live =
      ⟨s.nextId, e, true, 0⟩ :: s.live.dropLast := by
  unfold enqueue remove_tail
  have hne : s.live ≠ [] := by
    intro hh
    rw [hh] at hfull
    simp [MAX_CACHE_COUNT] at hfull
  obtain ⟨old, hold⟩ := Option.isSome_iff_exists.mp (List.getLast?_isSome.mpr hne)
  simp only [Bool.not_true, Bool.false_eq_true, if_false, if_pos hfull, hold]

lemma enqueue_retired_full (s : DeqState) (e : HttpResponse) {old : Node}
    (hfull : s.live.length = MAX_CACHE_COUNT) (hold : s.live.getLast? = some old) :
    (enqueue s e true).retired = { old with valid := false } :: s.retired := by
  unfold enqueue remove_tail
  simp only [Bool.not_true, Bool.false_eq_true, if_false, if_pos hfull, hold]

lemma enqueue_live_nonfull (s : DeqState) (e : HttpResponse)
    (h : s.live.length ≠ MAX_CACHE_COUNT) :
    (enqueue s e true).live = ⟨s.nextId, e, true, 0⟩ :: s.live := by
  unfold enqueue
  simp only [Bool.not_true, Bool.false_eq_true, if_false, if_neg h]

lemma enqueue_len_le (s : DeqState) (e : HttpResponse) (ok : Bool)
    (h : s.live.length ≤ MAX_CACHE_COUNT) :
    (enqueue s e ok).live.length ≤ MAX_CACHE_COUNT := by
  cases ok with
  | false => exact h
  | true =>
    by_cases hfull : s.live.length = MAX_CACHE_COUNT
    · rw [enqueue_live_full s e hfull]
      simp only [List.length_cons, List.length_dropLast]
      simp only [MAX_CACHE_COUNT] at hfull ⊢
      omega
    · rw [enqueue_live_nonfull s e hfull]
      simp only [List.length_cons]
      simp only [MAX_CACHE_COUNT] at hfull h ⊢
      omega

lemma stepD_len_le (s : DeqState) (op : DOp)
    (h : s.live.length ≤ MAX_CACHE_COUNT) :
    (stepD s op).live.length ≤ MAX_CACHE_COUNT := by
  cases op with
  | ins e ok => exact enqueue_len_le s e ok h
  | look k =>
    have h2 : (liveData ((search s k).2)).length = (liveData s).length := by
      rw [search_liveData]
    simp only [liveData, List.length_map] at h2
    exact le_of_eq_of_le h2 h
  | pdown nid => exact le_of_eq_of_le (put_down_live_length s nid) h

lemma runD_len_le (ops : List DOp) : (runD ops).live.length ≤ MAX_CACHE_COUNT := by
  suffices hgen : ∀ s, s.live.length ≤ MAX_CACHE_COUNT →
      (ops.foldl stepD s).live.length ≤ MAX_CACHE_COUNT by
    exact hgen emptyD (by simp [emptyD, MAX_CACHE_COUNT])
  induction ops with
  | nil => intro s h; simpa using h
  | cons op rest ih =>
    intro s h
    simp only [List.foldl_cons]
    exact ih _ (stepD_len_le s op h)

end DequeSrv

namespace DequeSrv

lemma liveData_length (s : DeqState) : (liveData s).length = s.live.length := by
  simp [liveData]

lemma liveData_enqueue (s : DeqState) (e : HttpResponse)
    (h : s.live.length ≤ MAX_CACHE_COUNT) :
    liveData (enqueue s e true) = (e :: liveData s).take MAX_CACHE_COUNT := by
  show (enqueue s e true).live.map Node.data = (e :: liveData s).take MAX_CACHE_COUNT
  by_cases hfull : s.live.length = MAX_CACHE_COUNT
  · rw [enqueue_live_full s e hfull]
    simp only [liveData, List.map_cons]
    rw [List.map_dropLast, List.dropLast_eq_take, List.length_map, hfull]
    show e :: List.take (MAX_CACHE_COUNT - 1) (s.live.map Node.data) =
      List.take (4 + 1) (e :: s.live.map Node.data)
    rw [List.take_succ_cons]
    norm_num [MAX_CACHE_COUNT]
  · rw [enqueue_live_nonfull s e hfull]
    simp only [liveData, List.map_cons]
    rw [List.take_of_length_le]
    simp only [List.length_cons, List.length_map]
    simp only [MAX_CACHE_COUNT] at h hfull ⊢
    omega

/-- Run a pure sequence of successful inserts against the empty deck. -/
def runDIns (es : List HttpResponse) : DeqState :=
  runD (es.map (fun e => DOp.ins e true))

lemma runDIns_liveData (es : List HttpResponse) :
    liveData (runDIns es) = es.reverse.take MAX_CACHE_COUNT := by
  induction es using List.reverseRecOn with
  | nil => rfl
  | append_singleton es e ih =>
    have hstep : runDIns (es ++ [e]) = enqueue (runDIns es) e true := by
      unfold runDIns runD
      rw [List.map_append, List.foldl_append]
      rfl
    have hlen : (runDIns es).live.length ≤ MAX_CACHE_COUNT := runD_len_le _
    rw [hstep, liveData_enqueue _ _ hlen, ih]
    rw [List.reverse_append]
    simp only [List.reverse_cons, List.reverse_nil, List.nil_append,
      List.singleton_append]
    show List.take (4 + 1) (e :: List.take MAX_CACHE_COUNT es.reverse) =
      List.take (4 + 1) (e :: es.reverse)
    rw [List.take_succ_cons, List.take_succ_cons, List.take_take]
    norm_num [MAX_CACHE_COUNT]

/-- Which payloads can be live after a sequence of deck calls: exactly the
data of some successful insert (lookups and unpins never change any
node's payload). -/
def insertedLikeD (ops : List DOp) (x : HttpResponse) : Prop :=
  ∃ e0 ok, DOp.ins e0 ok ∈ ops ∧ x = e0

lemma stepD_liveData_mem {s : DeqState} {op : DOp} {x : HttpResponse}
    (hx : x ∈ liveData (stepD s op)) :
    x ∈ liveData s ∨ ∃ e0 ok, op = DOp.ins e0 ok ∧ x = e0 := by
  cases op with
  | look k =>
    rw [show stepD s (DOp.look k) = (search s k).2 from rfl, search_liveData] at hx
    exact Or.inl hx
  | pdown nid =>
    rw [show stepD s (DOp.pdown nid) = put_down s nid from rfl,
      put_down_liveData] at hx
    exact Or.inl hx
  | ins e ok =>
    cases ok with
    | false => exact Or.inl hx
    | true =>
      have hx2 : x ∈ (enqueue s e true).live.map Node.data := hx
      by_cases hfull : s.live.length = MAX_CACHE_COUNT
      · rw [enqueue_live_full s e hfull] at hx2
        simp only [List.map_cons] at hx2
        rcases List.mem_cons.mp hx2 with rfl | hmem
        · exact Or.inr ⟨x, true, rfl, rfl⟩
        · rw [List.map_dropLast] at hmem
          exact Or.inl (List.dropLast_subset _ hmem)
      · rw [enqueue_live_nonfull s e hfull] at hx2
        simp only [List.map_cons] at hx2
        rcases List.mem_cons.mp hx2 with rfl | hmem
        · exact Or.inr ⟨x, true, rfl, rfl⟩
        · exact Or.inl hmem

lemma runD_prov {ops : List DOp} {x : HttpResponse}
    (hx : x ∈ liveData (runD ops)) : insertedLikeD ops x := by
  suffices hgen : ∀ s, x ∈ liveData (ops.foldl stepD s) →
      x ∈ liveData s ∨ insertedLikeD ops x by
    rcases hgen emptyD hx with h | h
    · simp [liveData, emptyD] at h
    · exact h
  clear hx
  induction ops with
  | nil => intro s h; exact Or.inl h
  | cons op rest ih =>
    intro s h
    simp only [List.foldl_cons] at h
    rcases ih (stepD s op) h with h2 | h2
    · rcases stepD_liveData_mem h2 with h3 | ⟨e0, ok, hop, hx0⟩
      · exact Or.inl h3
      · subst hop
        exact Or.inr ⟨e0, ok, List.mem_cons_self _ _, hx0⟩
    · obtain ⟨e0, ok, hmem, hx⟩ := h2
      exact Or.inr ⟨e0, ok, List.mem_cons_of_mem _ hmem, hx⟩

/-- The data component of a `search` result is a function of the live
data list alone: the first entry whose filename matches. -/
lemma search_data_eq (s : DeqState) (k : String) :
    ((search s k).1).map Prod.snd =
      (firstIdx (fun d => d.filename == k) (liveData s)).map
        (fun i => (liveData s).getD i default) := by
  unfold search
  by_cases h0 : s.live.length = 0
  · rw [if_pos h0]
    have : s.live = [] := List.length_eq_zero.mp h0
    simp [liveData, this, firstIdx]
  · rw [if_neg h0]
    have hmap : firstIdx (fun d => d.filename == k) (liveData s) =
        firstIdx (fun n => n.data.filename == k) s.live := by
      unfold liveData
      rw [firstIdx_map]
    rw [hmap]
    cases hfi : firstIdx (fun n => n.data.filename == k) s.live with
    | none => rfl
    | some i =>
      obtain ⟨hi, _, _⟩ := firstIdx_some hfi
      show some ((s.live.getD i default).data) =
        some ((liveData s).getD i default)
      unfold liveData
      rw [getD_map Node.data rfl]

/-- Repeating a deck lookup returns the same payload: the first lookup
only bumps a reference count, the live data list is untouched. -/
lemma search_twice {s : DeqState} {k : String} {r : Nat × HttpResponse}
    (h : (search s k).1 = some r) :
    ∃ r2 : Nat × HttpResponse,
      (search ((search s k).2) k).1 = some r2 ∧ r2.2 = r.2 := by
  have h1 := search_data_eq s k
  have h2 := search_data_eq ((search s k).2) k
  rw [search_liveData] at h2
  rw [h] at h1
  rw [← h1] at h2
  cases h3 : (search ((search s k).2) k).1 with
  | none =>
    rw [h3] at h2
    have hcontra : (none : Option HttpResponse) = some r.2 := h2
    simp at hcontra
  | some r2 =>
    rw [h3] at h2
    have heq : some r2.2 = some r.2 := h2
    exact ⟨r2, rfl, Option.some.inj heq⟩

end DequeSrv

/-- Outcomes of the `malloc` calls on a worker's miss path: the
`HttpResponse` struct, its `filename` buffer, its `response` (payload)
buffer, and — in the deque server only — the cache `Node` inside
`enqueue`. -/
structure AllocPlan where
  entryOk : Bool
  nameOk : Bool
  bufOk : Bool
  nodeOk : Bool
deriving DecidableEq, Repr

namespace DequeSrv

/-- Miss path of server_cached.c's worker (cache search failed, file
opened): if the `HttpResponse`, filename, or payload-buffer allocation
fails, the worker `pthread_exit`s without the file bytes having been
streamed and without touching the deck; once all three succeed the
payload is fully streamed and only then `enqueue` runs, whose internal
node allocation may itself fail and leaves the deck untouched. Returns
whether the file bytes were served, and the resulting deck. -/
def missPath (s : DeqState) (plan : AllocPlan) (e : HttpResponse) :
    Bool × DeqState :=
  if ! plan.entryOk then (false, s)
  else if ! plan.nameOk then (false, s)
  else if ! plan.bufOk then (false, s)
  else (true, enqueue s e plan.nodeOk)

end DequeSrv

namespace Naive

/-- Miss path of server_cached_naive.c's worker (cache search failed,
file opened): the same three allocations guard the response; the PQ
`enqueue` performs no allocation of its own. -/
def missPath (l : List HttpResponse) (plan : AllocPlan) (e : HttpResponse) :
    Bool × List HttpResponse :=
  if ! plan.entryOk then (false, l)
  else if ! plan.nameOk then (false, l)
  else if ! plan.bufOk then (false, l)
  else (true, PriorityQueue.enqueue l e)

/-- Events a worker of server_cached_naive.c performs, as far as the
locking discipline around `pq_mutex` is concerned. -/
inductive Ev where
  | lock
  | unlock
  | lookupHit
  | lookupMiss
  | sendPayload
  | send404
  | insertEv
  | closeFd
deriving DecidableEq, Repr

instance : Inhabited Ev := ⟨Ev.closeFd⟩

/-- The event trace of `handle_client_connection` in
server_cached_naive.c, by path: `hit` tells whether the guarded `search`
found the file, `fileOk` whether `fopen` succeeded on the miss path. On a
hit the whole payload transmission (`send_existing_http_response`)
happens before `pq_mutex` is released; on a miss the mutex is released
immediately after the failed `search`, the file is streamed outside any
critical section, and the mutex is re-acquired only around `enqueue`. -/
def handlerTrace (hit fileOk : Bool) : List Ev :=
  if hit then
    [Ev.lock, Ev.lookupHit, Ev.sendPayload, Ev.unlock, Ev.closeFd]
  else
    [Ev.lock, Ev.lookupMiss, Ev.unlock] ++
      (if fileOk then
        [Ev.sendPayload, Ev.lock, Ev.insertEv, Ev.unlock, Ev.closeFd]
      else
        [Ev.send404, Ev.closeFd])

/-- `pq_mutex` is held while the event at index `i` executes: strictly
more acquisitions than releases precede it. -/
def lockHeldAt (t : List Ev) (i : Nat) : Prop :=
  (t.take i).count Ev.unlock < (t.take i).count Ev.lock

instance (t : List Ev) (i : Nat) : Decidable (lockHeldAt t i) := by
  unfold lockHeldAt
  infer_instance

end Naive

/-! Concrete entries used by the scenario theorems and witnesses: six
files "a".."f" with distinct payloads, inserted with strictly increasing
access times. -/

def entA : HttpResponse := ⟨"a", [10], 1, ⟨1, 0⟩⟩

def entB : HttpResponse := ⟨"b", [11], 1, ⟨2, 0⟩⟩

def entC : HttpResponse := ⟨"c", [12], 1, ⟨3, 0⟩⟩

def entD : HttpResponse := ⟨"d", [13], 1, ⟨4, 0⟩⟩

def entE : HttpResponse := ⟨"e", [14], 1, ⟨5, 0⟩⟩

def entF : HttpResponse := ⟨"f", [15], 1, ⟨6, 0⟩⟩

/-- The PQ cache after inserting a, b, c, d, e into the empty array. -/
def pq5 : List HttpResponse :=
  PriorityQueue.enqueue (PriorityQueue.enqueue (PriorityQueue.enqueue
    (PriorityQueue.enqueue (PriorityQueue.enqueue [] entA) entB) entC) entD) entE

/-- The PQ cache after the sixth insert f (forcing an eviction). -/
def pq6 : List HttpResponse := PriorityQueue.enqueue pq5 entF

/-- The deck after inserting a, b, c, d, e into the empty deque. -/
def deq5 : DequeSrv.DeqState := DequeSrv.runDIns [entA, entB, entC, entD, entE]

/-- Claim C4 (confirmed): starting from the empty CoarseLockedCache of
capacity 5, inserting a, b, c, d, e leaves all five cached; the sixth
insert f evicts exactly one entry, namely a - the entry whose
`access_time` is oldest among all five - and installs f; afterwards a
lookup of "f" hits with f's payload bytes and a lookup of the evicted
key "a" misses. -/
theorem c4_concrete_scenario :
    (entA ∈ pq5 ∧ entB ∈ pq5 ∧ entC ∈ pq5 ∧ entD ∈ pq5 ∧ entE ∈ pq5 ∧
      pq5.length = 5) ∧
    (entF ∈ pq6 ∧ entA ∉ pq6 ∧ entB ∈ pq6 ∧ entC ∈ pq6 ∧ entD ∈ pq6 ∧
      entE ∈ pq6 ∧ pq6.length = 5) ∧
    (∀ e ∈ pq5, ¬ tsLt e.access_time entA.access_time) ∧
    ((PriorityQueue.search pq6 "f" ⟨7, 0⟩).1 =
      some { entF with access_time := ⟨7, 0⟩ }) ∧
    ((PriorityQueue.search (PriorityQueue.search pq6 "f" ⟨7, 0⟩).2
        "a" ⟨8, 0⟩).1 = none) := by
  decide

/-- Claim C10 (confirmed): a CoarseLockedCache `search` whose key matches
no stored entry returns NULL and leaves the queue exactly unchanged -
same size, same slots in the same positions, same access times; no
`clock_gettime` write and no `heapifyUp` happens on the miss path. -/
theorem c10_miss_is_pure :
    ∀ (l : List HttpResponse) (k : String) (now : Timespec),
      (∀ e ∈ l, e.filename ≠ k) →
      PriorityQueue.search l k now = (none, l) := by
  intro l k now h
  apply PriorityQueue.search_eq_miss
  exact (firstIdx_none_iff _ _).mpr (fun e he => by simpa using h e he)

/-- Witness for C10: a concrete miss ("z" is not cached) on a two-entry
queue returns NULL with the queue unchanged. -/
theorem c10_miss_is_pure_witness :
    PriorityQueue.search [entB, entA] "z" ⟨9, 0⟩ = (none, [entB, entA]) :=
  c10_miss_is_pure [entB, entA] "z" ⟨9, 0⟩ (by decide)

/-- Claim C1 counterexample: insert f into a full deck whose tail (the
node holding "a") has `reference_count = 0`. The claim says such a tail is
freed at the moment of retirement; in the code `remove_tail` only clears
`valid` and frees nothing, so the node sits in the retired set with pin
count 0 and the freed set stays empty - the node is leaked, not freed. -/
theorem c1_counterexample_tail_not_freed :
    deq5.live.getLast? = some ⟨0, entA, true, 0⟩ ∧
    (DequeSrv.enqueue deq5 entF true).freed = [] ∧
    ⟨0, entA, false, 0⟩ ∈ (DequeSrv.enqueue deq5 entF true).retired := by
  decide

/-- Claim C1 as amended: a node is destroyed only by `put_down`, exactly
when the decrement brings its `reference_count` to 0 while it is retired
(`valid = 0`). Retirement itself (`remove_tail`, reached through
`enqueue` on a full deck) never frees a node - even one with pin count 0
- and `search` frees nothing either; every node entering the freed set
does so through `put_down` with count 0 and `valid = 0`, and a retired
node whose last pin is dropped is freed by that `put_down`. -/
theorem c1_destroy_only_on_unpin :
    (∀ (s : DequeSrv.DeqState) (e : HttpResponse) (ok : Bool),
      (DequeSrv.enqueue s e ok).freed = s.freed) ∧
    (∀ (s : DequeSrv.DeqState) (k : String),
      ((DequeSrv.search s k).2).freed = s.freed) ∧
    (∀ (s : DequeSrv.DeqState) (nid : Nat) (n : DequeSrv.Node),
      n ∈ (DequeSrv.put_down s nid).freed →
      n ∈ s.freed ∨ (n.nid = nid ∧ n.reference_count = 0 ∧ n.valid = false)) ∧
    (∀ (s : DequeSrv.DeqState) (n : DequeSrv.Node),
      n ∈ s.retired → n.valid = false → n.reference_count = 1 →
      { n with reference_count := 0 } ∈ (DequeSrv.put_down s n.nid).freed) := by
  refine ⟨DequeSrv.enqueue_freed, DequeSrv.search_freed, ?_, ?_⟩
  · intro s nid n hn
    exact DequeSrv.put_down_freed_sub hn
  · intro s n hn hv hrc
    exact DequeSrv.put_down_frees hn hv hrc

/-- Witness for C1: concrete instances of each conjunct - inserting f
into the full deck frees nothing; a search frees nothing; the node
freed by a concrete `put_down` was retired with count reaching 0; and
dropping the last pin of a concrete retired node frees it. -/
theorem c1_destroy_only_on_unpin_witness :
    (DequeSrv.enqueue deq5 entF true).freed = deq5.freed ∧
    ((DequeSrv.search deq5 "a").2).freed = deq5.freed ∧
    ((⟨7, entA, false, 0⟩ : DequeSrv.Node) ∈
        (DequeSrv.put_down ⟨[], [⟨7, entA, false, 1⟩], [], 8⟩ 7).freed →
      (⟨7, entA, false, 0⟩ : DequeSrv.Node) ∈
          ([] : List DequeSrv.Node) ∨ (7 = 7 ∧ (0 : Int) = 0 ∧ false = false)) ∧
    ({ (⟨7, entA, false, 1⟩ : DequeSrv.Node) with reference_count := 0 } ∈
      (DequeSrv.put_down ⟨[], [⟨7, entA, false, 1⟩], [], 8⟩ 7).freed) :=
  ⟨c1_destroy_only_on_unpin.1 deq5 entF true,
   c1_destroy_only_on_unpin.2.1 deq5 "a",
   fun h => c1_destroy_only_on_unpin.2.2.1 ⟨[], [⟨7, entA, false, 1⟩], [], 8⟩ 7 _ h,
   c1_destroy_only_on_unpin.2.2.2 ⟨[], [⟨7, entA, false, 1⟩], [], 8⟩
     ⟨7, entA, false, 1⟩ (by decide) (by decide) (by decide)⟩

/-- Claim C2 counterexample: after inserting a (time 1) then b (time 2)
into the empty array, `heapifyUp` has swapped b to the root, so the
parent slot holds the NEWER access time - the spec's claimed ordering
(parent `lastAccess` less than or equal to its children's, root = least
recently used) is violated already by two inserts. -/
theorem c2_counterexample_not_min_heap :
    ¬ PriorityQueue.SpecMinHeap
      (PriorityQueue.enqueue (PriorityQueue.enqueue [] entA) entB) := by
  decide

/-- Claim C2 as amended: the comparison in `heapifyUp` orders the array
the other way round - after every insert and every hit promotion, each
occupied child slot's `access_time` is no LATER than its parent's (a
max-heap on access times), provided the freshly stamped time is no
earlier than any cached access time (true of a monotone clock); hence the
slot at index 0 holds the MOST recently used entry, not the least. -/
theorem c2_maxheap_preserved :
    (∀ (l : List HttpResponse) (v : HttpResponse),
      PriorityQueue.IsMaxHeap l →
      (∀ e ∈ l, ¬ tsLt v.access_time e.access_time) →
      PriorityQueue.IsMaxHeap (PriorityQueue.enqueue l v)) ∧
    (∀ (l : List HttpResponse) (k : String) (now : Timespec),
      PriorityQueue.IsMaxHeap l →
      (∀ e ∈ l, ¬ tsLt now e.access_time) →
      PriorityQueue.IsMaxHeap ((PriorityQueue.search l k now).2)) ∧
    (∀ (l : List HttpResponse), PriorityQueue.IsMaxHeap l →
      ∀ i, i < l.length →
        ¬ tsLt (PriorityQueue.ts l 0) (PriorityQueue.ts l i)) := by
  refine ⟨?_, ?_, ?_⟩
  · intro l v hh hmax
    exact PriorityQueue.enqueue_maxheap hh hmax
  · intro l k now hh hnow
    exact PriorityQueue.search_maxheap l k now hh hnow
  · intro l hh i hi
    exact PriorityQueue.root_latest hh i hi

/-- Witness for C2: on the concrete two-entry max-heap [b, a], inserting
c (time 3) and promoting a hit on "a" (stamped at time 9) both preserve
the max-heap ordering, and the root of [b, a] holds the latest time. -/
theorem c2_maxheap_preserved_witness :
    PriorityQueue.IsMaxHeap (PriorityQueue.enqueue [entB, entA] entC) ∧
    PriorityQueue.IsMaxHeap ((PriorityQueue.search [entB, entA] "a" ⟨9, 0⟩).2) ∧
    ¬ tsLt (PriorityQueue.ts [entB, entA] 0) (PriorityQueue.ts [entB, entA] 1) :=
  ⟨c2_maxheap_preserved.1 [entB, entA] entC (by decide) (by decide),
   c2_maxheap_preserved.2.1 [entB, entA] "a" ⟨9, 0⟩ (by decide) (by decide),
   c2_maxheap_preserved.2.2 [entB, entA] (by decide) 1 (by decide)⟩

/-- A concrete two-entry deck: the node for "a" at the head, the node
for "b" at the tail. -/
def deqAB : DequeSrv.DeqState :=
  ⟨[⟨1, entA, true, 0⟩, ⟨2, entB, true, 0⟩], [], [], 3⟩

/-- Claim C3 counterexample: a hit on "b" in the two-node deck returns
b's entry, yet the resulting list holds the same entries in the same
order with the same access times - the matched node is still the tail
(not relocated toward the head) and `entB.access_time` is untouched; only
its reference count changed. This falsifies the claimed `lastAccess`
update and relocation. -/
theorem c3_counterexample_no_relocation :
    ((DequeSrv.search deqAB "b").1).map Prod.snd = some entB ∧
    ((DequeSrv.search deqAB "b").2).live.map DequeSrv.Node.data =
      [entA, entB] ∧
    ((DequeSrv.search deqAB "b").2).live.map DequeSrv.Node.reference_count =
      [0, 1] := by
  decide

/-- Claim C3 as amended: a deck lookup that hits increments the matched
node's `reference_count` and returns its id and data, changing nothing
else - no access-time update, no relocation: the data list (entries,
order, timestamps) is identical, and retired/freed sets are untouched; a
lookup that misses returns NULL with the state exactly unchanged. -/
theorem c3_hit_only_pins :
    (∀ (s : DequeSrv.DeqState) (k : String) (r : Nat × HttpResponse)
        (st2 : DequeSrv.DeqState),
      DequeSrv.search s k = (some r, st2) →
      ∃ i, i < s.live.length ∧
        st2 = { s with live := s.live.set i { s.live.getD i default with
            reference_count := (s.live.getD i default).reference_count + 1 } } ∧
        r = ((s.live.getD i default).nid, (s.live.getD i default).data) ∧
        (s.live.getD i default).data.filename = k ∧
        DequeSrv.liveData st2 = DequeSrv.liveData s ∧
        st2.retired = s.retired ∧ st2.freed = s.freed) ∧
    (∀ (s : DequeSrv.DeqState) (k : String),
      (∀ n ∈ s.live, n.data.filename ≠ k) →
      DequeSrv.search s k = (none, s)) := by
  constructor
  · intro s k r st2 h
    cases hfi : firstIdx (fun n => n.data.filename == k) s.live with
    | none =>
      have hmiss : DequeSrv.search s k = (none, s) := by
        unfold DequeSrv.search
        by_cases h0 : s.live.length = 0
        · rw [if_pos h0]
        · rw [if_neg h0, hfi]
      rw [hmiss] at h
      simp at h
    | some i =>
      obtain ⟨hilen, hmatch, hfirst⟩ := firstIdx_some hfi
      have hhit := DequeSrv.search_hit hfi
      rw [hhit] at h
      have hr : r = ((s.live.getD i default).nid, (s.live.getD i default).data) :=
        (Option.some.inj (congrArg Prod.fst h)).symm
      have hst : st2 = { s with live := s.live.set i { s.live.getD i default with
          reference_count := (s.live.getD i default).reference_count + 1 } } :=
        (congrArg Prod.snd h).symm
      refine ⟨i, hilen, hst, hr, by simpa using hmatch, ?_, ?_, ?_⟩
      · have := DequeSrv.search_liveData s k
        rw [hhit] at this
        rw [hst]
        exact this
      · rw [hst]
      · rw [hst]
  · exact DequeSrv.search_miss

/-- Witness for C3: the concrete hit on "b" in the two-node deck pins the
tail node in place (index 1), and a lookup of the uncached "z" leaves the
deck unchanged. -/
theorem c3_hit_only_pins_witness :
    (∃ i, i < deqAB.live.length ∧
      (DequeSrv.search deqAB "b").2 =
        { deqAB with live := deqAB.live.set i { deqAB.live.getD i default with
            reference_count := (deqAB.live.getD i default).reference_count + 1 } } ∧
      ((2, entB) : Nat × HttpResponse) =
        ((deqAB.live.getD i default).nid, (deqAB.live.getD i default).data) ∧
      (deqAB.live.getD i default).data.filename = "b" ∧
      DequeSrv.liveData ((DequeSrv.search deqAB "b").2) =
        DequeSrv.liveData deqAB ∧
      ((DequeSrv.search deqAB "b").2).retired = deqAB.retired ∧
      ((DequeSrv.search deqAB "b").2).freed = deqAB.freed) ∧
    DequeSrv.search deqAB "z" = (none, deqAB) :=
  ⟨c3_hit_only_pins.1 deqAB "b" (2, entB) ((DequeSrv.search deqAB "b").2)
      (by decide),
   c3_hit_only_pins.2 deqAB "z" (by decide)⟩

/-- Claim C5 (confirmed): under any sequence of cache calls starting from
the empty cache, neither engine ever holds more than N = 5 live entries:
the PQ's occupied slots stay at most 5 and the deck's reachable list
stays at most 5 nodes. Moreover an insert into a full cache first removes
an existing entry before the new one becomes live: the full-array PQ
`enqueue` overwrites exactly the slot picked by the eviction scan
(keeping 5 slots), and the full deck `enqueue` drops the tail from the
live list before linking the new node at the head (keeping 5 nodes). -/
theorem c5_capacity_bound :
    (∀ ops : List PriorityQueue.PQOp,
      (PriorityQueue.runPQ ops).length ≤ MAX) ∧
    (∀ ops : List DequeSrv.DOp,
      (DequeSrv.runD ops).live.length ≤ DequeSrv.MAX_CACHE_COUNT) ∧
    (∀ (l : List HttpResponse) (v : HttpResponse), l.length = MAX →
      (PriorityQueue.enqueue l v).length = MAX ∧
      (PriorityQueue.evictScan l).2 < MAX ∧
      List.Perm (PriorityQueue.enqueue l v)
        (l.set (PriorityQueue.evictScan l).2 v)) ∧
    (∀ (s : DequeSrv.DeqState) (e : HttpResponse),
      s.live.length = DequeSrv.MAX_CACHE_COUNT →
      (DequeSrv.enqueue s e true).live =
        ⟨s.nextId, e, true, 0⟩ :: s.live.dropLast ∧
      (DequeSrv.enqueue s e true).live.length = DequeSrv.MAX_CACHE_COUNT) := by
  refine ⟨PriorityQueue.runPQ_length_le, DequeSrv.runD_len_le, ?_, ?_⟩
  · intro l v hfull
    have hidx : (PriorityQueue.evictScan l).2 < l.length :=
      PriorityQueue.evictScan_lt l hfull
    refine ⟨PriorityQueue.enqueue_length_full l v hfull, by omega, ?_⟩
    show List.Perm (PriorityQueue.enqueue l v) _
    unfold PriorityQueue.enqueue
    rw [if_pos hfull]
    exact PriorityQueue.heapifyUp_perm _ _ (by simpa using hidx)
  · intro s e hfull
    refine ⟨DequeSrv.enqueue_live_full s e hfull, ?_⟩
    rw [DequeSrv.enqueue_live_full s e hfull]
    simp only [List.length_cons, List.length_dropLast, hfull]
    rfl

/-- Witness for C5: the bounds hold on the concrete six-insert histories,
and the full-cache insert of f overwrites exactly one slot of the full PQ
and drops exactly the deck tail. -/
theorem c5_capacity_bound_witness :
    ((PriorityQueue.runPQ [PriorityQueue.PQOp.ins entA,
        PriorityQueue.PQOp.ins entB]).length ≤ MAX) ∧
    ((DequeSrv.runD [DequeSrv.DOp.ins entA true,
        DequeSrv.DOp.ins entB true]).live.length ≤ DequeSrv.MAX_CACHE_COUNT) ∧
    ((PriorityQueue.enqueue pq5 entF).length = MAX ∧
      (PriorityQueue.evictScan pq5).2 < MAX ∧
      List.Perm (PriorityQueue.enqueue pq5 entF)
        (pq5.set (PriorityQueue.evictScan pq5).2 entF)) ∧
    ((DequeSrv.enqueue deq5 entF true).live =
        ⟨deq5.nextId, entF, true, 0⟩ :: deq5.live.dropLast ∧
      (DequeSrv.enqueue deq5 entF true).live.length =
        DequeSrv.MAX_CACHE_COUNT) :=
  ⟨c5_capacity_bound.1 _, c5_capacity_bound.2.1 _,
   c5_capacity_bound.2.2.1 pq5 entF (by decide),
   c5_capacity_bound.2.2.2 deq5 entF (by decide)⟩

namespace PriorityQueue

lemma search_some_char {l : List HttpResponse} {k : String} {now : Timespec}
    {r : HttpResponse} {l2 : List HttpResponse}
    (h : search l k now = (some r, l2)) :
    ∃ e ∈ l, r.filename = e.filename ∧ r.response = e.response := by
  cases hfi : firstIdx (fun e => e.filename == k) l with
  | none =>
    rw [search_eq_miss now hfi] at h
    simp at h
  | some i =>
    rw [search_eq_hit now hfi] at h
    obtain ⟨hilen, hmatch, hfirst⟩ := firstIdx_some hfi
    have hre : r = (heapifyUp (l.set i { l.getD i default with
        access_time := now }) i).getD i default :=
      (Option.some.inj (congrArg Prod.fst h)).symm
    have hlen2 : i < (heapifyUp (l.set i { l.getD i default with
        access_time := now }) i).length := by
      rw [heapifyUp_length, List.length_set]
      exact hilen
    have hrmem : r ∈ heapifyUp (l.set i { l.getD i default with
        access_time := now }) i := by
      rw [hre]
      exact getD_mem _ i hlen2
    have hx2 : r ∈ l.set i { l.getD i default with access_time := now } :=
      heapifyUp_mem (by simpa using hilen) hrmem
    rcases List.mem_or_eq_of_mem_set hx2 with hmem | heq
    · exact ⟨r, hmem, rfl, rfl⟩
    · exact ⟨l.getD i default, getD_mem l i hilen, by rw [heq], by rw [heq]⟩

end PriorityQueue

namespace DequeSrv

lemma searchD_some_char {s : DeqState} {k : String} {r : Nat × HttpResponse}
    {st2 : DeqState} (h : search s k = (some r, st2)) :
    r.2.filename = k ∧ r.2 ∈ liveData s := by
  cases hfi : firstIdx (fun n => n.data.filename == k) s.live with
  | none =>
    have hmiss : search s k = (none, s) := by
      unfold search
      by_cases h0 : s.live.length = 0
      · rw [if_pos h0]
      · rw [if_neg h0, hfi]
    rw [hmiss] at h
    simp at h
  | some i =>
    rw [search_hit hfi] at h
    obtain ⟨hilen, hmatch, hfirst⟩ := firstIdx_some hfi
    have hre : r = ((s.live.getD i default).nid, (s.live.getD i default).data) :=
      (Option.some.inj (congrArg Prod.fst h)).symm
    constructor
    · rw [hre]
      simpa using hmatch
    · rw [hre]
      exact List.mem_map.mpr ⟨s.live.getD i default, getD_mem s.live i hilen, rfl⟩

end DequeSrv

/-- Claim C6 counterexample: after inserting a (bytes [10], time 1) and
b (bytes [11], time 2) the array is [b, a]; the only insert of key "a"
carried bytes [10]. A lookup of "a" stamps slot 1 and `heapifyUp` swaps
the struct CONTENTS of slots 0 and 1 while the already-captured return
pointer keeps aiming at slot 1 - so the hit exposes b's bytes [11]; an
immediate second lookup of "a" (now matching at the root, where no swap
occurs) returns [10]. With all cached keys distinct, this refutes both
"the returned payload bytes equal the bytes passed to the insert that
created that entry" and repeat-lookup idempotence for the PQ engine. -/
theorem c6_counterexample_displaced_read :
    PriorityQueue.runPQ [PriorityQueue.PQOp.ins entA,
      PriorityQueue.PQOp.ins entB] = [entB, entA] ∧
    ((PriorityQueue.search [entB, entA] "a" ⟨9, 0⟩).1).map
      HttpResponse.response = some entB.response ∧
    entB.response ≠ entA.response ∧
    ((PriorityQueue.search (PriorityQueue.search [entB, entA] "a" ⟨9, 0⟩).2
        "a" ⟨10, 0⟩).1).map HttpResponse.response = some entA.response := by
  decide

/-- Claim C6 as amended: in the RefCountedCache (deque) engine the claim
holds as stated - a hit returns exactly the entry some insert of that key
created (payloads are never mutated; a hit only bumps a pin count), and
repeated lookups of a present key return the same payload bytes. In the
CoarseLockedCache (PQ) engine the returned pointer's contents are
displaced by the hit promotion's struct swap whenever the matched slot is
promoted, so a hit can expose a different insert's bytes; what remains
true there is that the exposed bytes always carry the filename and bytes
of some earlier insert (never fabricated), and a hit whose first match
sits at the root returns that matched entry's own (freshly stamped)
bytes. -/
theorem c6_bytes_amended :
    (∀ (ops : List DequeSrv.DOp) (k : String) (r : Nat × HttpResponse)
        (st2 : DequeSrv.DeqState),
      DequeSrv.search (DequeSrv.runD ops) k = (some r, st2) →
      ∃ e0 ok, DequeSrv.DOp.ins e0 ok ∈ ops ∧ r.2 = e0 ∧ e0.filename = k) ∧
    (∀ (s : DequeSrv.DeqState) (k : String) (r : Nat × HttpResponse),
      (DequeSrv.search s k).1 = some r →
      ∃ r2 : Nat × HttpResponse,
        (DequeSrv.search ((DequeSrv.search s k).2) k).1 = some r2 ∧
        r2.2 = r.2) ∧
    (∀ (ops : List PriorityQueue.PQOp) (k : String) (now : Timespec)
        (r : HttpResponse) (l2 : List HttpResponse),
      PriorityQueue.search (PriorityQueue.runPQ ops) k now = (some r, l2) →
      ∃ e0, PriorityQueue.PQOp.ins e0 ∈ ops ∧
        r.filename = e0.filename ∧ r.response = e0.response) ∧
    (∀ (l : List HttpResponse) (k : String) (now : Timespec),
      firstIdx (fun e => e.filename == k) l = some 0 →
      (PriorityQueue.search l k now).1 =
        some { l.getD 0 default with access_time := now } ∧
      (l.getD 0 default).filename = k) := by
  refine ⟨?_, ?_, ?_, ?_⟩
  · intro ops k r st2 h
    obtain ⟨hrk, hmem⟩ := DequeSrv.searchD_some_char h
    obtain ⟨e0, ok, hins, hx⟩ := DequeSrv.runD_prov hmem
    exact ⟨e0, ok, hins, hx, by rw [← hx, hrk]⟩
  · intro s k r h
    exact DequeSrv.search_twice h
  · intro ops k now r l2 h
    obtain ⟨e, he, hf, hr⟩ := PriorityQueue.search_some_char h
    obtain ⟨e0, hmem, hf0, hr0⟩ := PriorityQueue.runPQ_prov he
    exact ⟨e0, hmem, hf.trans hf0, hr.trans hr0⟩
  · intro l k now hfi
    exact PriorityQueue.search_root_hit now hfi

/-- Witness for C6: concrete instances - the deck hit on "a" after
inserting a returns entry a and a repeat hit returns the same entry; the
PQ hit on "a" in [b, a] (which serves b's entry through the displaced
pointer) still carries the filename and bytes of the insert of b; and the
root-slot hit on the singleton cache [a] returns a's own stamped entry. -/
theorem c6_bytes_amended_witness :
    (∃ e0 ok, DequeSrv.DOp.ins e0 ok ∈ [DequeSrv.DOp.ins entA true] ∧
      (((0, entA) : Nat × HttpResponse)).2 = e0 ∧ e0.filename = "a") ∧
    (∃ r2 : Nat × HttpResponse,
      (DequeSrv.search ((DequeSrv.search deq5 "a").2) "a").1 = some r2 ∧
      r2.2 = (((0, entA) : Nat × HttpResponse)).2) ∧
    (∃ e0, PriorityQueue.PQOp.ins e0 ∈
        [PriorityQueue.PQOp.ins entA, PriorityQueue.PQOp.ins entB] ∧
      entB.filename = e0.filename ∧ entB.response = e0.response) ∧
    ((PriorityQueue.search [entA] "a" ⟨9, 0⟩).1 =
        some { ([entA] : List HttpResponse).getD 0 default with
          access_time := (⟨9, 0⟩ : Timespec) } ∧
      (([entA] : List HttpResponse).getD 0 default).filename = "a") :=
  ⟨c6_bytes_amended.1 [DequeSrv.DOp.ins entA true] "a" (0, entA)
      ((DequeSrv.search (DequeSrv.runD [DequeSrv.DOp.ins entA true]) "a").2)
      (by decide),
   c6_bytes_amended.2.1 deq5 "a" (0, entA) (by decide),
   c6_bytes_amended.2.2.1 [PriorityQueue.PQOp.ins entA,
      PriorityQueue.PQOp.ins entB] "a" ⟨9, 0⟩ entB
      ((PriorityQueue.search (PriorityQueue.runPQ [PriorityQueue.PQOp.ins entA,
        PriorityQueue.PQOp.ins entB]) "a" ⟨9, 0⟩).2) (by decide),
   c6_bytes_amended.2.2.2 [entA] "a" ⟨9, 0⟩ (by decide)⟩

/-- Claim C7 counterexample: when the `HttpResponse` struct allocation
fails on the naive server's miss path, the insert is indeed a no-op on
the cache, but the worker does NOT serve the freshly-read file bytes -
it `pthread_exit`s after closing the socket, so the payload is never
sent. The same holds in the deque server. -/
theorem c7_counterexample_alloc_fail_aborts :
    (Naive.missPath [] ⟨false, true, true, true⟩ entA).1 = false ∧
    (Naive.missPath [] ⟨false, true, true, true⟩ entA).2 = [] ∧
    (DequeSrv.missPath DequeSrv.emptyD ⟨false, true, true, true⟩ entA).1 = false ∧
    (DequeSrv.missPath DequeSrv.emptyD ⟨false, true, true, true⟩ entA).2 =
      DequeSrv.emptyD := by
  decide

/-- Claim C7 as amended: every allocation failure on the miss path leaves
the cache exactly unchanged, but only the node allocation inside the
deque `enqueue` - which runs after the payload has been fully streamed -
leaves the client served; a failure to allocate the entry, its filename,
or its payload buffer aborts the worker's response without the file bytes
having been sent (in both servers). -/
theorem c7_alloc_failure_no_op :
    (∀ (l : List HttpResponse) (plan : AllocPlan) (e : HttpResponse),
      plan.entryOk = false ∨ plan.nameOk = false ∨ plan.bufOk = false →
      Naive.missPath l plan e = (false, l)) ∧
    (∀ (s : DequeSrv.DeqState) (plan : AllocPlan) (e : HttpResponse),
      plan.entryOk = false ∨ plan.nameOk = false ∨ plan.bufOk = false →
      DequeSrv.missPath s plan e = (false, s)) ∧
    (∀ (s : DequeSrv.DeqState) (e : HttpResponse),
      DequeSrv.missPath s ⟨true, true, true, false⟩ e = (true, s)) ∧
    (∀ (l : List HttpResponse) (e : HttpResponse) (nodeOk : Bool),
      Naive.missPath l ⟨true, true, true, nodeOk⟩ e =
        (true, PriorityQueue.enqueue l e)) := by
  refine ⟨?_, ?_, ?_, ?_⟩
  · intro l plan e h
    obtain ⟨he, hn, hb, hd⟩ := plan
    unfold Naive.missPath
    rcases h with h | h | h <;> simp_all
  · intro s plan e h
    obtain ⟨he, hn, hb, hd⟩ := plan
    unfold DequeSrv.missPath
    rcases h with h | h | h <;> simp_all
  · intro s e
    rfl
  · intro l e nodeOk
    rfl

/-- Witness for C7: concrete instances - a payload-buffer allocation
failure leaves both caches unchanged and unserved; a node allocation
failure in the deque `enqueue` leaves the deck unchanged with the client
already served. -/
theorem c7_alloc_failure_no_op_witness :
    Naive.missPath [entB] ⟨true, true, false, true⟩ entA = (false, [entB]) ∧
    DequeSrv.missPath deqAB ⟨true, true, false, true⟩ entA = (false, deqAB) ∧
    DequeSrv.missPath deqAB ⟨true, true, true, false⟩ entA = (true, deqAB) ∧
    Naive.missPath [entB] ⟨true, true, true, true⟩ entA =
      (true, PriorityQueue.enqueue [entB] entA) :=
  ⟨c7_alloc_failure_no_op.1 [entB] ⟨true, true, false, true⟩ entA
      (Or.inr (Or.inr rfl)),
   c7_alloc_failure_no_op.2.1 deqAB ⟨true, true, false, true⟩ entA
      (Or.inr (Or.inr rfl)),
   c7_alloc_failure_no_op.2.2.1 deqAB entA,
   c7_alloc_failure_no_op.2.2.2 [entB] entA true⟩

/-- Claim C8 (confirmed): in server_cached_naive.c every handler acquires
`pq_mutex` as its first cache action, before `search` (events 0 and 1 of
every trace, with the lock held during the lookup); on a hit, the payload
transmission happens with the lock held and every unlock comes after it,
so the response is fully sent before release - whence, the mutex being
exclusive, no two hit transmissions can overlap; on a miss the event
right after the failed lookup is the unlock, payload bytes are sent with
the lock free, and the lock is re-acquired only around `enqueue`. -/
theorem c8_naive_lock_discipline :
    (∀ hit fileOk : Bool,
      (Naive.handlerTrace hit fileOk).getD 0 default = Naive.Ev.lock ∧
      ((Naive.handlerTrace hit fileOk).getD 1 default = Naive.Ev.lookupHit ∨
        (Naive.handlerTrace hit fileOk).getD 1 default = Naive.Ev.lookupMiss) ∧
      Naive.lockHeldAt (Naive.handlerTrace hit fileOk) 1) ∧
    (∀ fileOk : Bool, ∀ i, i < (Naive.handlerTrace true fileOk).length →
      (Naive.handlerTrace true fileOk).getD i default = Naive.Ev.sendPayload →
      Naive.lockHeldAt (Naive.handlerTrace true fileOk) i) ∧
    (∀ fileOk : Bool, ∀ i, i < (Naive.handlerTrace true fileOk).length →
      ∀ j, j < (Naive.handlerTrace true fileOk).length →
      (Naive.handlerTrace true fileOk).getD i default = Naive.Ev.sendPayload →
      (Naive.handlerTrace true fileOk).getD j default = Naive.Ev.unlock →
      i < j) ∧
    (∀ fileOk : Bool,
      (Naive.handlerTrace false fileOk).getD 1 default = Naive.Ev.lookupMiss ∧
      (Naive.handlerTrace false fileOk).getD 2 default = Naive.Ev.unlock) ∧
    (∀ fileOk : Bool, ∀ i, i < (Naive.handlerTrace false fileOk).length →
      (Naive.handlerTrace false fileOk).getD i default = Naive.Ev.sendPayload →
      ¬ Naive.lockHeldAt (Naive.handlerTrace false fileOk) i) ∧
    (∀ fileOk : Bool, ∀ i, i < (Naive.handlerTrace false fileOk).length →
      (Naive.handlerTrace false fileOk).getD i default = Naive.Ev.insertEv →
      Naive.lockHeldAt (Naive.handlerTrace false fileOk) i) := by
  decide

/-- Witness for C8: the hit trace sends its payload at index 2 with the
lock held, and the miss trace with the file present sends its payload at
index 3 with the lock free and inserts at index 5 with the lock held. -/
theorem c8_naive_lock_discipline_witness :
    Naive.lockHeldAt (Naive.handlerTrace true true) 2 ∧
    (2 : Nat) < 3 ∧
    ¬ Naive.lockHeldAt (Naive.handlerTrace false true) 3 ∧
    Naive.lockHeldAt (Naive.handlerTrace false true) 5 :=
  ⟨c8_naive_lock_discipline.2.1 true 2 (by decide) (by decide),
   c8_naive_lock_discipline.2.2.1 true 2 (by decide) 3 (by decide)
     (by decide) (by decide),
   c8_naive_lock_discipline.2.2.2.2.1 true 3 (by decide) (by decide),
   c8_naive_lock_discipline.2.2.2.2.2 true 5 (by decide) (by decide)⟩

/-- Claim C9 (confirmed): the deck never deduplicates - `enqueue` links
every new node at the head and eviction removes only the tail, so after
any pure insert history the live list is exactly the most recent 5
inserts, newest first; `search` scans from the head and returns the first
filename match, hence with a key inserted more than once the lookup
returns the entry created by the most recent still-live insert of that
key. -/
theorem c9_lookup_returns_most_recent_insert :
    (∀ es : List HttpResponse,
      DequeSrv.liveData (DequeSrv.runDIns es) =
        es.reverse.take DequeSrv.MAX_CACHE_COUNT) ∧
    (∀ (pre post : List HttpResponse) (e : HttpResponse) (k : String),
      e.filename = k → post.length < DequeSrv.MAX_CACHE_COUNT →
      (∀ x ∈ post, x.filename ≠ k) →
      ((DequeSrv.search (DequeSrv.runDIns (pre ++ e :: post)) k).1).map
        Prod.snd = some e) := by
  constructor
  · exact DequeSrv.runDIns_liveData
  · intro pre post e k hk hlen hpost
    rw [DequeSrv.search_data_eq, DequeSrv.runDIns_liveData]
    have hrev : (pre ++ e :: post).reverse = post.reverse ++ e :: pre.reverse := by
      rw [List.reverse_append, List.reverse_cons]
      simp [List.append_assoc]
    rw [hrev]
    have hlenrev : post.reverse.length ≤ DequeSrv.MAX_CACHE_COUNT := by
      rw [List.length_reverse]
      omega
    obtain ⟨m, hm⟩ : ∃ m,
        DequeSrv.MAX_CACHE_COUNT - post.reverse.length = m + 1 := by
      refine ⟨DequeSrv.MAX_CACHE_COUNT - post.reverse.length - 1, ?_⟩
      rw [List.length_reverse]
      simp only [DequeSrv.MAX_CACHE_COUNT] at hlen ⊢
      omega
    rw [List.take_append_eq_append_take, List.take_of_length_le hlenrev, hm,
      List.take_succ_cons]
    have hA : ∀ x ∈ post.reverse, ¬ (x.filename == k) = true := by
      intro x hx
      simpa using hpost x (List.mem_reverse.mp hx)
    have hcons : firstIdx (fun d => d.filename == k)
        (e :: List.take m pre.reverse) = some 0 := by
      simp [firstIdx, hk]
    rw [firstIdx_append_skip _ _ _ hA, hcons]
    show some ((post.reverse ++ e :: List.take m pre.reverse).getD
      (0 + post.reverse.length) default) = some e
    rw [Nat.zero_add, List.getD_append_right _ _ _ _ (le_refl _), Nat.sub_self]
    rfl

/-- Witness for C9: inserting b, a, c (in that order) leaves lookup of
"a" returning the middle insert a, the most recent insert of that key. -/
theorem c9_lookup_returns_most_recent_insert_witness :
    DequeSrv.liveData (DequeSrv.runDIns [entB, entA, entC]) =
      ([entB, entA, entC]).reverse.take DequeSrv.MAX_CACHE_COUNT ∧
    ((DequeSrv.search (DequeSrv.runDIns ([entB] ++ entA :: [entC])) "a").1).map
      Prod.snd = some entA :=
  ⟨c9_lookup_returns_most_recent_insert.1 [entB, entA, entC],
   c9_lookup_returns_most_recent_insert.2 [entB] [entC] entA "a"
     (by decide) (by decide) (by decide)⟩
